import Mathlib

/-!
Verification of the cue-to-transcript alignment core of `server.py`
(number expander, word normalizer & similarity oracle, global sequence
aligner, cue timing extractor, boundary smoother).

Conventions of the shallow embedding:
* Python `float` seconds are modelled as `ℚ` (the claims under study are
  about ordering, equality and sign of timings, all of which the code
  computes with `+`, `/2`, `max` on values that are exact in this model).
* Python strings are Lean `String`s; character predicates (`str.lower`,
  `str.isdigit`, the regex class `\w`) are modelled at ASCII granularity,
  matching the behaviour of the code on ASCII input.
* Python dicts keyed by steadily increasing integers are modelled as
  association lists built by appending (keys are never overwritten by the
  code, so append equals dict insertion), looked up with `List.lookup`.
-/

namespace VideoMaker

/-! ### Number-to-words conversion (`_ONES`, `_TENS`, `_int_to_words`,
`_ordinal_to_words` in server.py) -/

def ONES : List String :=
  ["", "one", "two", "three", "four", "five", "six", "seven", "eight", "nine",
   "ten", "eleven", "twelve", "thirteen", "fourteen", "fifteen", "sixteen",
   "seventeen", "eighteen", "nineteen"]

def TENS : List String :=
  ["", "", "twenty", "thirty", "forty", "fifty", "sixty", "seventy", "eighty", "ninety"]

/-- `_int_to_words(n)`: convert integer 0-99999 to English words
(larger values fall through to `str(n)`, negatives recurse on `-n`).
All divisions below are on non-negative values, where Python's floor
division and `Int`'s T-division agree. -/
def int_to_words (n : Int) : String :=
  if _h0 : n = 0 then "zero"
  else if _h1 : n < 0 then "negative " ++ int_to_words (-n)
  else if _h2 : n < 20 then ONES.getD n.toNat ""
  else if _h3 : n < 100 then
    TENS.getD (n / 10).toNat "" ++ (if n % 10 ≠ 0 then " " ++ ONES.getD (n % 10).toNat "" else "")
  else if _h4 : n < 1000 then
    ONES.getD (n / 100).toNat "" ++ " hundred" ++
      (if n % 100 ≠ 0 then " " ++ int_to_words (n % 100) else "")
  else if _h5 : n < 100000 then
    int_to_words (n / 1000) ++ " thousand" ++
      (if n % 1000 ≠ 0 then " " ++ int_to_words (n % 1000) else "")
  else toString n
termination_by 2 * n.natAbs + (if n < 0 then 1 else 0)
decreasing_by
  all_goals split_ifs <;> omega

/-- `_ordinal_to_words(n)`: 1 -> first, 2 -> second, 21 -> twenty first. -/
def ordinal_to_words (n : Int) : String :=
  if _h0 : n ≤ 0 then int_to_words n
  else if n = 1 then "first" else if n = 2 then "second" else if n = 3 then "third"
  else if n = 5 then "fifth" else if n = 8 then "eighth" else if n = 9 then "ninth"
  else if n = 12 then "twelfth"
  else if _h1 : n < 20 then
    let base := ONES.getD n.toNat ""
    if base.endsWith "e" then base.dropRight 1 ++ "th" else base ++ "th"
  else if n < 100 ∧ n % 10 = 0 then
    (TENS.getD (n / 10).toNat "").dropRight 1 ++ "ieth"
  else if _h2 : n < 100 then
    TENS.getD (n / 10).toNat "" ++ " " ++ ordinal_to_words (n % 10)
  else int_to_words n ++ "th"
termination_by n.natAbs
decreasing_by omega

/-! ### Token classification inside `expand_numbers_in_text` -/

/-- The strip set `'.,!?;:\'"()-[]{}'` of `token.strip(...)`. -/
def stripSet : List Char :=
  ['.', ',', '!', '?', ';', ':', '\'', '"', '(', ')', '-', '[', ']', '\x7b', '\x7d']

/-- Python `token.strip(chars)`: drop leading and trailing characters that
belong to the set. -/
def pyStrip (s : String) : String :=
  ⟨((s.data.dropWhile stripSet.contains).reverse.dropWhile stripSet.contains).reverse⟩

/-- Python `str.split()` (no argument): split on whitespace runs, dropping
empty pieces. -/
def pySplit (s : String) : List String :=
  (s.split Char.isWhitespace).filter (· ≠ "")

/-- Python `str.isdigit()` on ASCII: non-empty and all characters digits. -/
def pyIsDigit (s : String) : Bool :=
  !s.data.isEmpty && s.data.all Char.isDigit

/-- `int(...)` on a string of ASCII digits. -/
def digitsToInt (s : String) : Int :=
  (s.data.foldl (fun a c => a * 10 + (c.toNat - 48)) 0 : Nat)

/-- The regex `^(\d+)(st|nd|rd|th)$` applied to the lowercased stripped
token: digits followed by one of the four ordinal suffixes.  Returns the
parsed integer when it matches. -/
def matchOrdinal (s : String) : Option Int :=
  let cs := s.data
  let ds := cs.take (cs.length - 2)
  let suf := cs.drop (cs.length - 2)
  if (suf = ['s', 't'] ∨ suf = ['n', 'd'] ∨ suf = ['r', 'd'] ∨ suf = ['t', 'h'])
      ∧ ds ≠ [] ∧ ds.all Char.isDigit
  then some (digitsToInt ⟨ds⟩) else none

/-- The regex `^(\d+)\.(\d+)$` on the stripped token: whole digits, a dot,
fractional digits.  Returns the whole part and the fractional digit list. -/
def matchDecimal (s : String) : Option (Int × List Char) :=
  match s.splitOn "." with
  | [w, f] =>
    if w ≠ "" ∧ f ≠ "" ∧ w.data.all Char.isDigit ∧ f.data.all Char.isDigit
    then some (digitsToInt w, f.data) else none
  | _ => none

/-- One iteration of the token loop of `expand_numbers_in_text`.
The `try/except ValueError` guards of the source never fire (their
arguments are digit strings), so they have no counterpart here. -/
def expandToken (token : String) : String :=
  let stripped := pyStrip token
  let lower : String := ⟨stripped.data.map Char.toLower⟩
  match matchOrdinal lower with
  | some n => ordinal_to_words n
  | none =>
    if pyIsDigit stripped then int_to_words (digitsToInt stripped)
    else
      match matchDecimal stripped with
      | some (w, fds) =>
        String.intercalate " "
          (int_to_words w :: "point" :: fds.map (fun d => int_to_words ((d.toNat : Int) - 48)))
      | none => token

/-- `expand_numbers_in_text(text)`: expand number tokens to word form. -/
def expand_numbers_in_text (text : String) : String :=
  String.intercalate " " ((pySplit text).map expandToken)

/-! ### Word normalization and similarity -/

/-- The regex class `\w` (ASCII): alphanumeric or underscore. -/
def isWordChar (c : Char) : Bool := c.isAlphanum || c = '_'

/-- `normalize_word(w)`: `re.sub(r'[^\w]', '', w.lower())`. -/
def normalize_word (w : String) : String :=
  ⟨(w.data.map Char.toLower).filter isWordChar⟩

/-- `_NUM_TO_WORDS`: the table `{str(i): _int_to_words(i) for i in range(200)}`,
as a lookup function (first — unique — hit wins, as in a dict). -/
def NUM_TO_WORDS (s : String) : Option String :=
  (List.range 200).findSome? fun i =>
    if toString (i : Int) = s then some (int_to_words i) else none

/-- `words_similar(a, b)`: exact match, number-word equivalence via
`_NUM_TO_WORDS`, single-character difference for equal lengths ≥ 4, or a
≤ 2-character extension of a common stem of length ≥ 3. -/
def words_similar (a b : String) : Bool :=
  if a = "" ∨ b = "" then false
  else if a = b then true
  else if (match NUM_TO_WORDS a with
           | some ws => (ws.splitOn " ").contains b
           | none => false) then true
  else if (match NUM_TO_WORDS b with
           | some ws => (ws.splitOn " ").contains a
           | none => false) then true
  else if a.length ≥ 4 ∧ b.length ≥ 4 ∧ a.length = b.length
          ∧ ((a.data.zip b.data).filter (fun p => p.1 ≠ p.2)).length ≤ 1 then true
  else if a.length ≥ 3 ∧ b.length ≥ 3 ∧
          (let shorter := if a.length ≤ b.length then a else b
           let longer := if a.length ≤ b.length then b else a
           shorter.isPrefixOf longer ∧ longer.length - shorter.length ≤ 2) then true
  else false

/-! ### Global sequence alignment (`align_sequences` in server.py)

The Python `while c < n and t < m` loop body is split into `alignStep`
(one iteration: the direct-match test, the three bounded lookahead
searches, the choice of the cheapest recovery, and the entries it adds)
and `alignLoop` (the loop itself).  All list indexing in the loop is
in-bounds, so `getD _ ""` equals Python's subscripts. -/

def MAX_LOOK : Nat := 15

/-- Option A: smallest `dt` in `range(1, min(MAX_LOOK+1, m-t))` with
`words_similar(cue[c], transcript[t+dt])`. -/
def lookT (cue tr : List String) (c t : Nat) : Option Nat :=
  (List.range' 1 (min (MAX_LOOK + 1) (tr.length - t) - 1)).find?
    fun dt => words_similar (cue.getD c "") (tr.getD (t + dt) "")

/-- Option B: smallest `dc` in `range(1, min(MAX_LOOK+1, n-c))` with
`words_similar(cue[c+dc], transcript[t])`. -/
def lookC (cue tr : List String) (c t : Nat) : Option Nat :=
  (List.range' 1 (min (MAX_LOOK + 1) (cue.length - c) - 1)).find?
    fun dc => words_similar (cue.getD (c + dc) "") (tr.getD t "")

/-- Option C: smallest `d` in `range(1, min(MAX_LOOK+1, min(n-c, m-t)))`
with `words_similar(cue[c+d], transcript[t+d])`. -/
def lookD (cue tr : List String) (c t : Nat) : Option Nat :=
  (List.range' 1 (min (MAX_LOOK + 1) (min (cue.length - c) (tr.length - t)) - 1)).find?
    fun d => words_similar (cue.getD (c + d) "") (tr.getD (t + d) "")

/-- The recovery chosen for a mismatch. -/
inductive Action where
  | skipT (k : Nat)
  | skipC (k : Nat)
  | skipBoth (k : Nat)
  | force
deriving DecidableEq, Repr

/-- "Pick cheapest recovery": `best_cost` starts at `MAX_LOOK + 1`; the
three candidates are tried in the order `t_skip`, `c_skip`, `d_skip`,
each replacing the incumbent only when strictly cheaper. -/
def pickAction (ts cs ds : Option Nat) : Action :=
  let s1 : Action × Nat :=
    match ts with
    | some k => if k < MAX_LOOK + 1 then (.skipT k, k) else (.force, MAX_LOOK + 1)
    | none => (.force, MAX_LOOK + 1)
  let s2 : Action × Nat :=
    match cs with
    | some k => if k < s1.2 then (.skipC k, k) else s1
    | none => s1
  let s3 : Action × Nat :=
    match ds with
    | some k => if k < s2.2 then (.skipBoth k, k) else s2
    | none => s2
  s3.1

/-- One iteration of the alignment loop: returns the new `c`, the new `t`
and the `alignment[...] = ...` entries recorded by the iteration, in the
order the Python code records them. -/
def alignStep (cue tr : List String) (c t : Nat) : Nat × Nat × List (Nat × Nat) :=
  if words_similar (cue.getD c "") (tr.getD t "") then
    (c + 1, t + 1, [(c, t)])
  else
    match pickAction (lookT cue tr c t) (lookC cue tr c t) (lookD cue tr c t) with
    | .skipT k => (c + 1, t + k + 1, [(c, t + k)])
    | .skipC k => (c + k + 1, t + 1, ((List.range k).map fun i => (c + i, t)) ++ [(c + k, t)])
    | .skipBoth k =>
      (c + k + 1, t + k + 1, ((List.range k).map fun i => (c + i, t + i)) ++ [(c + k, t + k)])
    | .force => (c + 1, t + 1, [(c, t)])

/-- The cue pointer strictly advances in every iteration (this is the
forced-progress property that terminates the scan). -/
theorem alignStep_fst_lt (cue tr : List String) (c t : Nat) :
    c < (alignStep cue tr c t).1 := by
  unfold alignStep
  split
  · simp
  · split <;> dsimp only <;> omega

/-- The transcript pointer strictly advances in every iteration. -/
theorem alignStep_snd_lt (cue tr : List String) (c t : Nat) :
    t < (alignStep cue tr c t).2.1 := by
  unfold alignStep
  split
  · simp
  · split <;> dsimp only <;> omega

/-- The `while c < n and t < m` loop.  Returns the recorded entries and
the final value of `c`. -/
def alignLoop (cue tr : List String) (c t : Nat) (acc : List (Nat × Nat)) :
    List (Nat × Nat) × Nat :=
  if c < cue.length ∧ t < tr.length then
    alignLoop cue tr (alignStep cue tr c t).1 (alignStep cue tr c t).2.1
      (acc ++ (alignStep cue tr c t).2.2)
  else (acc, c)
termination_by cue.length - c
decreasing_by
  have := alignStep_fst_lt cue tr c t
  omega

/-- `align_sequences(cue_words, transcript_words)`: the loop, followed by
the trailing `if c < n and m > 0` pass that maps every remaining cue word
to the last transcript index. -/
def align_sequences (cue_words transcript_words : List String) : List (Nat × Nat) :=
  let r := alignLoop cue_words transcript_words 0 0 []
  if r.2 < cue_words.length ∧ transcript_words.length > 0 then
    r.1 ++ (List.range' r.2 (cue_words.length - r.2)).map
      (fun i => (i, transcript_words.length - 1))
  else r.1

/-! ### Cue timing extraction (`match_cues_to_transcript` in server.py) -/

/-- A transcript word with its timestamps (the dicts
`{'word': ..., 'start': ..., 'end': ...}` of the transcription). -/
structure Word where
  word : String
  start : ℚ
  «end» : ℚ
deriving DecidableEq, Repr

instance : Inhabited Word := ⟨⟨"", 0, 0⟩⟩

/-- One entry of the `results` list of `match_cues_to_transcript`.
`status` carries the literal strings `"matched"` / `"partial"` /
`"failed"` of the source. -/
structure CueMatch where
  cue_index : Nat
  cue_text : String
  status : String
  matched_text : String
  start : ℚ
  «end» : ℚ
  score : ℚ
deriving DecidableEq, Repr

instance : Inhabited CueMatch := ⟨⟨0, "", "failed", "", 0, 0, 0⟩⟩

/-- Python `round(x, 3)`: round to 3 decimal places, ties to even
(banker's rounding, the behaviour of `round` on floats whose scaled
value is exactly representable). -/
def round3 (q : ℚ) : ℚ :=
  let x := q * 1000
  let f : Int := ⌊x⌋
  let r := x - f
  (if r < 1/2 then f else if r > 1/2 then f + 1
   else if f % 2 = 0 then f else f + 1 : ℚ) / 1000

/-- Step 2 of `match_cues_to_transcript` applied to one expanded cue
line: `[normalize_word(w) for w in line.split() if normalize_word(w)]`. -/
def cueLineWords (line : String) : List String :=
  ((pySplit line).map normalize_word).filter (· ≠ "")

/-- The `(start, end)` pairs accumulated in `cue_ranges`:
`start = len(flat_cue_words)` before the cue's words are appended and
`end = len(flat_cue_words) - 1` after (an `Int`, since `end = start - 1`
for a cue with no words). -/
def buildRanges : List (List String) → Nat → List (Nat × Int)
  | [], _ => []
  | ws :: rest, acc =>
    (acc, (acc : Int) + ws.length - 1) :: buildRanges rest (acc + ws.length)

/-- Step 5 of `match_cues_to_transcript` for a single cue: collect the
transcript indices its flat-word range aligned to and derive the result
record. -/
def extractCue (cue_lines : List String) (words : List Word)
    (alignment : List (Nat × Nat)) (rg : Nat × Int) (cue_idx : Nat) : CueMatch :=
  let cue_start := rg.1
  let cue_end := rg.2
  let t_indices :=
    (List.range' cue_start (cue_end + 1 - cue_start).toNat).filterMap
      fun c_idx => alignment.lookup c_idx
  match t_indices with
  | [] =>
    { cue_index := cue_idx, cue_text := cue_lines.getD cue_idx "",
      status := "failed", matched_text := "", start := 0, «end» := 0, score := 0 }
  | v :: vs =>
    let first_t := (v :: vs).foldl min v
    let last_t := (v :: vs).foldl max v
    let cue_word_count : Int := cue_end - cue_start + 1
    let score : ℚ := (t_indices.length : ℚ) / (cue_word_count : ℚ)
    { cue_index := cue_idx, cue_text := cue_lines.getD cue_idx "",
      status := if score ≥ 1/2 then "matched" else "partial",
      matched_text := String.intercalate " "
        ((List.range' first_t (last_t + 1 - first_t)).map
          fun i => (words.getD i default).word),
      start := (words.getD first_t default).start,
      «end» := (words.getD last_t default).«end»,
      score := round3 score }

/-- Step 6 of `match_cues_to_transcript` for index `i`: interpolate the
timing of a still-`failed` cue from the nearest non-failed neighbours in
the *current* state of the results list (the Python pass mutates the
list in place while scanning it). -/
def interpStep (words : List Word) (res : List CueMatch) (i : Nat) : List CueMatch :=
  let r := res.getD i default
  let laterIdx : List Nat := List.range' (i + 1) (res.length - (i + 1))
  if r.status = "failed" then
    let prev_end : ℚ :=
      match (List.range i).reverse.find? (fun j => (res.getD j default).status ≠ "failed") with
      | some j => (res.getD j default).«end»
      | none => 0
    let next_start : ℚ :=
      match laterIdx.find? (fun j => (res.getD j default).status ≠ "failed") with
      | some j => (res.getD j default).start
      | none => match words.getLast? with
                | some w => w.«end»
                | none => 0
    if prev_end > 0 ∨ next_start > 0 then
      res.set i { r with start := prev_end, «end» := next_start,
                         status := "partial", matched_text := "(interpolated)",
                         score := 1/2 }
    else res
  else res

/-- The whole interpolation pass (`for i, r in enumerate(results)`). -/
def interpolate (words : List Word) (results : List CueMatch) : List CueMatch :=
  (List.range results.length).foldl (interpStep words) results

/-- `match_cues_to_transcript(cue_lines, words)`. -/
def match_cues_to_transcript (cue_lines : List String) (words : List Word) :
    List CueMatch :=
  let expanded_cues := cue_lines.map expand_numbers_in_text
  let cueWordLists := expanded_cues.map cueLineWords
  let flat_cue_words := cueWordLists.flatten
  let cue_ranges := buildRanges cueWordLists 0
  let transcript_norm := words.map fun w => normalize_word w.word
  let alignment := align_sequences flat_cue_words transcript_norm
  let results := (List.range cue_ranges.length).map
    fun cue_idx => extractCue cue_lines words alignment (cue_ranges.getD cue_idx (0, 0)) cue_idx
  interpolate words results

/-! ### Boundary smoothing (step 4 of `split_audio`, server.py 1404-1439):
non-overlapping cut points at the midpoints of inter-cue gaps.  A cue
whose match is still `failed` contributes `None` instead of a point. -/

/-- The split point for cue `i` of `matches` (the body of the
`for i, m in enumerate(matches)` loop). -/
def splitPoint (ms : List CueMatch) (total_audio_duration : ℚ) (i : Nat) :
    Option (ℚ × ℚ) :=
  let m := ms.getD i default
  if m.status = "failed" then none
  else
    let cut_start : ℚ :=
      if i = 0 then 0
      else
        let prev := ms.getD (i - 1) default
        if prev.status ≠ "failed" ∧ prev.«end» > 0 then (prev.«end» + m.start) / 2
        else max 0 (m.start - 3/20)
    let cut_end : ℚ :=
      if i = ms.length - 1 then total_audio_duration
      else
        let nxt := ms.getD (i + 1) default
        if nxt.status ≠ "failed" ∧ nxt.start > 0 then (m.«end» + nxt.start) / 2
        else m.«end» + 3/20
    some (cut_start, cut_end)

/-- The full `split_points` list: one entry per cue. -/
def split_points (ms : List CueMatch) (total_audio_duration : ℚ) :
    List (Option (ℚ × ℚ)) :=
  (List.range ms.length).map (splitPoint ms total_audio_duration)

/-! ## Claim theorems -/

/-- C1: with an empty transcript every cue's result keeps `status =
"failed"` (and `start = end = 0`): the interpolation pass is guarded by
`prev_end > 0 or next_start > 0`, which is false when every neighbour is
failed and there is no last word, so — contrary to the function's own
docstring "no failures possible" and to the spec — the failed state
*does* survive the interpolation pass on an empty transcript. -/
theorem C1_empty_transcript_stays_failed :
    (match_cues_to_transcript ["hello"] []).map CueMatch.status = ["failed"] ∧
    (match_cues_to_transcript ["hello"] []).map CueMatch.start = [0] ∧
    (match_cues_to_transcript ["hello"] []).map (fun r => r.«end») = [0] := by
  refine ⟨?_, ?_, ?_⟩ <;> with_unfolding_all rfl

/-- C2 counterexample: two consecutive non-failed cues where the first
one's matched `end` is `0` (its only matched word has timestamps
`0.0-0.0`): cue 0's `cutEnd` is the midpoint `0.5`, but cue 1's
`cutStart` falls back to `max(0, start - 0.15) = 0.85` because the
`prev['end'] > 0` test fails, so `SplitPoint[0].cutEnd ≠
SplitPoint[1].cutStart`. -/
theorem C2_counterexample :
    split_points [⟨0, "a", "matched", "a", 0, 0, 1⟩, ⟨1, "b", "matched", "b", 1, 2, 1⟩] 3
      = [some (0, 1/2), some (17/20, 3)] ∧ ((1 : ℚ)/2 ≠ 17/20) := by
  constructor
  · with_unfolding_all rfl
  · with_unfolding_all decide

/-- C3 counterexample: on cue lines `["a b", "?", "c"]` and the
single-word transcript `[("a", 0, 1)]`, cue 1 normalizes to zero words,
fails, and is interpolated to `start = 1` (end of cue 0) and `end = 0`
(start of cue 2, whose words were force-assigned to transcript index 0),
so its result has `start > end`. -/
theorem C3_counterexample :
    ¬ (∀ r ∈ match_cues_to_transcript ["a b", "?", "c"] [⟨"a", 0, 1⟩],
        r.start ≤ r.«end») := by
  with_unfolding_all decide

/-- C4 counterexample: with matched timings that extend past the audio
duration (`ffprobe` may report a duration shorter than the transcript
timestamps), the split points `[(0, 15), (15, 5)]` violate both
`cutStart ≤ cutEnd` and `cutEnd ≤ totalAudioDuration`. -/
theorem C4_counterexample :
    split_points [⟨0, "a", "matched", "a", 0, 10, 1⟩, ⟨1, "b", "matched", "b", 20, 30, 1⟩] 5
      = [some (0, 15), some (15, 5)] ∧ ¬ ((15 : ℚ) ≤ 5) := by
  constructor
  · with_unfolding_all rfl
  · with_unfolding_all decide

/-- C6 counterexample: `_NUM_TO_WORDS` only covers `range(200)`, so for
the digit string `"200"` — whose cardinal expansion "two hundred" does
contain the word "two" — `words_similar` returns `false`. -/
theorem C6_counterexample :
    words_similar "200" "two" = false ∧ "two" ∈ (int_to_words 200).splitOn " " := by
  constructor
  · with_unfolding_all rfl
  · with_unfolding_all decide

/-- C7 counterexample: the code strips `[^\w]`, and `\w` keeps the
underscore, so `normalize_word "_" = "_"` although `'_'` is neither a
letter nor a digit — the output is *not* restricted to lowercase letters
and digits. -/
theorem C7_counterexample :
    normalize_word "_" = "_" ∧ ¬ ('_'.isAlpha ∨ '_'.isDigit) := by
  exact ⟨rfl, by decide⟩

/-! Helper lemmas about `Char.toLower` for the amended C7. -/

theorem char_toNat_ofNat (n : Nat) (h : n.isValidChar) : (Char.ofNat n).toNat = n := by
  rw [Char.ofNat, dif_pos h]; rfl

theorem toLower_isUpper_eq_false (c : Char) : (Char.toLower c).isUpper = false := by
  unfold Char.toLower
  simp only []
  split
  next h =>
    have hv : (c.toNat + 32).isValidChar := Or.inl (by omega)
    have ht : (Char.ofNat (c.toNat + 32)).toNat = c.toNat + 32 := char_toNat_ofNat _ hv
    simp only [Char.isUpper, Bool.and_eq_false_iff, decide_eq_false_iff_not, UInt32.le_def,
      BitVec.le_def] at *
    right
    show ¬ ((Char.ofNat (c.toNat + 32)).val.toBitVec.toNat ≤ (90 : UInt32).toBitVec.toNat)
    have h2 : (Char.ofNat (c.toNat + 32)).val.toBitVec.toNat = c.toNat + 32 := ht
    have h90 : ((90 : UInt32)).toBitVec.toNat = 90 := rfl
    omega
  next h =>
    simp only [Char.isUpper, Bool.and_eq_false_iff, decide_eq_false_iff_not, UInt32.le_def,
      BitVec.le_def]
    have h65 : ((65 : UInt32)).toBitVec.toNat = 65 := rfl
    have h90 : ((90 : UInt32)).toBitVec.toNat = 90 := rfl
    have hn : c.val.toBitVec.toNat = c.toNat := rfl
    rw [not_and_or] at h
    rcases h with h | h
    · left; intro hle; exact h (by omega)
    · right; intro hle; exact h (by omega)

theorem wordChar_cases (d : Char) (hw : isWordChar d = true) (hu : d.isUpper = false) :
    d.isLower = true ∨ d.isDigit = true ∨ d = '_' := by
  unfold isWordChar Char.isAlphanum Char.isAlpha at hw
  simp only [Bool.or_eq_true, decide_eq_true_eq] at hw
  rcases hw with ((h | h) | h) | h
  · rw [hu] at h; exact absurd h (by simp)
  · exact Or.inl h
  · exact Or.inr (Or.inl h)
  · exact Or.inr (Or.inr h)

/-- C7 amended: `normalize_word` lowercases and strips every character
outside the regex class `\w`; its output consists of lowercase letters,
digits *and possibly underscores* (it is a pure, total function by
construction). -/
theorem C7_amended_normalize_word_chars (w : String) :
    ∀ d ∈ (normalize_word w).data, d.isLower = true ∨ d.isDigit = true ∨ d = '_' := by
  intro d hd
  have hd' : d ∈ (w.data.map Char.toLower).filter isWordChar := hd
  simp only [List.mem_filter, List.mem_map] at hd'
  obtain ⟨⟨c, _, rfl⟩, hw⟩ := hd'
  exact wordChar_cases _ hw (toLower_isUpper_eq_false c)

/-- Witness for C7's amended theorem at a concrete input. -/
theorem C7_amended_witness :
    'a' ∈ (normalize_word "A_b9!").data ∧
      ('a'.isLower = true ∨ 'a'.isDigit = true ∨ 'a' = '_') :=
  ⟨by decide, C7_amended_normalize_word_chars "A_b9!" 'a' (by decide)⟩

/-- A non-failed cue's split point, with the two `if` chains of the loop
body exposed. -/
theorem splitPoint_eq (ms : List CueMatch) (T : ℚ) (i : Nat)
    (h : ¬ (ms.getD i default).status = "failed") :
    splitPoint ms T i = some (
      (if i = 0 then 0 else
        if (ms.getD (i-1) default).status ≠ "failed" ∧ (ms.getD (i-1) default).«end» > 0
        then ((ms.getD (i-1) default).«end» + (ms.getD i default).start) / 2
        else max 0 ((ms.getD i default).start - 3/20)),
      (if i = ms.length - 1 then T else
        if (ms.getD (i+1) default).status ≠ "failed" ∧ (ms.getD (i+1) default).start > 0
        then ((ms.getD i default).«end» + (ms.getD (i+1) default).start) / 2
        else (ms.getD i default).«end» + 3/20)) := by
  unfold splitPoint
  simp only []
  rw [if_neg h]

/-- C2 amended: contiguity of split points holds exactly when both
neighbouring cues are non-failed with positive `end` (left cue) and
positive `start` (right cue): then both cut points are the shared
midpoint.  `cutStart = 0` holds for cue 0 and `cutEnd = totalDuration`
for the last cue whenever that cue is non-failed (failed cues produce no
split point at all). -/
theorem C2_amended_split_points (ms : List CueMatch) (T : ℚ) :
    (∀ i, i + 1 < ms.length →
      (ms.getD i default).status ≠ "failed" →
      (ms.getD (i+1) default).status ≠ "failed" →
      0 < (ms.getD i default).«end» →
      0 < (ms.getD (i+1) default).start →
      ∃ p q, splitPoint ms T i = some p ∧ splitPoint ms T (i+1) = some q ∧
        p.2 = q.1 ∧
        p.2 = ((ms.getD i default).«end» + (ms.getD (i+1) default).start) / 2) ∧
    (0 < ms.length → (ms.getD 0 default).status ≠ "failed" →
      ∃ p, splitPoint ms T 0 = some p ∧ p.1 = 0) ∧
    ((ms.getD (ms.length - 1) default).status ≠ "failed" →
      ∃ p, splitPoint ms T (ms.length - 1) = some p ∧ p.2 = T) := by
  refine ⟨?_, ?_, ?_⟩
  · intro i hi h1 h2 he hs
    rw [splitPoint_eq ms T i h1, splitPoint_eq ms T (i+1) h2]
    refine ⟨_, _, rfl, rfl, ?_, ?_⟩
    · simp only [Nat.add_sub_cancel]
      rw [if_neg (by omega), if_neg (by omega : ¬ i + 1 = 0), if_pos ⟨h2, hs⟩, if_pos ⟨h1, he⟩]
    · simp only []
      rw [if_neg (by omega), if_pos ⟨h2, hs⟩]
  · intro _ h0
    rw [splitPoint_eq ms T 0 h0]
    exact ⟨_, rfl, by rw [if_pos rfl]⟩
  · intro hl
    rw [splitPoint_eq ms T (ms.length - 1) hl]
    refine ⟨_, rfl, ?_⟩
    simp

/-- Witness for C2's amended theorem: two cleanly matched cues; both cut
points around the boundary equal the midpoint 1.5. -/
theorem C2_amended_witness :
    ∃ p q, splitPoint [⟨0, "a", "matched", "a", 0, 1, 1⟩, ⟨1, "b", "matched", "b", 2, 3, 1⟩] 4 0
        = some p ∧
      splitPoint [⟨0, "a", "matched", "a", 0, 1, 1⟩, ⟨1, "b", "matched", "b", 2, 3, 1⟩] 4 1
        = some q ∧
      p.2 = q.1 ∧
      p.2 = (([⟨0, "a", "matched", "a", 0, 1, 1⟩,
               ⟨1, "b", "matched", "b", 2, 3, 1⟩] : List CueMatch).getD 0 default).«end» / 2
              + (([⟨0, "a", "matched", "a", 0, 1, 1⟩,
                  ⟨1, "b", "matched", "b", 2, 3, 1⟩] : List CueMatch).getD 1 default).start / 2 := by
  obtain ⟨p, q, h1, h2, h3, h4⟩ :=
    (C2_amended_split_points
      [⟨0, "a", "matched", "a", 0, 1, 1⟩, ⟨1, "b", "matched", "b", 2, 3, 1⟩] 4).1 0
      (by decide) (by decide) (by decide)
      (by with_unfolding_all decide) (by with_unfolding_all decide)
  exact ⟨p, q, h1, h2, h3, by rw [h4]; ring⟩

/-- C4 amended: every split point satisfies `0 ≤ cutStart ≤ cutEnd ≤
totalAudioDuration` provided the match results are well-formed (each has
`0 ≤ start ≤ end ≤ T`), time-ordered (`end_i ≤ start_{i+1}`), and leave
room for the fixed 0.15 s pad before the end of the audio
(`end_i + 0.15 ≤ T` for every non-last cue).  Without those input
guarantees the invariant fails (see the counterexample). -/
theorem C4_amended_split_bounds (ms : List CueMatch) (T : ℚ)
    (hwf : ∀ i < ms.length, 0 ≤ (ms.getD i default).start ∧
            (ms.getD i default).start ≤ (ms.getD i default).«end» ∧
            (ms.getD i default).«end» ≤ T)
    (hord : ∀ i, i + 1 < ms.length →
            (ms.getD i default).«end» ≤ (ms.getD (i+1) default).start)
    (hpad : ∀ i, i + 1 < ms.length → (ms.getD i default).«end» + 3/20 ≤ T) :
    ∀ i < ms.length, ∀ p, splitPoint ms T i = some p →
      0 ≤ p.1 ∧ p.1 ≤ p.2 ∧ p.2 ≤ T := by
  intro i hi p hp
  by_cases hf : (ms.getD i default).status = "failed"
  · unfold splitPoint at hp
    simp only [] at hp
    rw [if_pos hf] at hp
    exact absurd hp (by simp)
  rw [splitPoint_eq ms T i hf] at hp
  have hp' := Option.some.inj hp
  subst hp'
  obtain ⟨hs0, hse, heT⟩ := hwf i hi
  dsimp only
  have hA0 : (0 : ℚ) ≤ (if i = 0 then 0 else
      if (ms.getD (i-1) default).status ≠ "failed" ∧ (ms.getD (i-1) default).«end» > 0
      then ((ms.getD (i-1) default).«end» + (ms.getD i default).start) / 2
      else max 0 ((ms.getD i default).start - 3/20)) := by
    split_ifs with h1 h2
    · exact le_refl 0
    · obtain ⟨hs0', hse', _⟩ := hwf (i-1) (by omega)
      linarith
    · exact le_max_left 0 _
  have hAle : (if i = 0 then 0 else
      if (ms.getD (i-1) default).status ≠ "failed" ∧ (ms.getD (i-1) default).«end» > 0
      then ((ms.getD (i-1) default).«end» + (ms.getD i default).start) / 2
      else max 0 ((ms.getD i default).start - 3/20)) ≤ (ms.getD i default).start := by
    split_ifs with h1 h2
    · exact hs0
    · have hprev := hord (i-1) (by omega)
      rw [Nat.sub_add_cancel (by omega)] at hprev
      linarith
    · exact max_le hs0 (by linarith)
  have hBge : (ms.getD i default).start ≤ (if i = ms.length - 1 then T else
      if (ms.getD (i+1) default).status ≠ "failed" ∧ (ms.getD (i+1) default).start > 0
      then ((ms.getD i default).«end» + (ms.getD (i+1) default).start) / 2
      else (ms.getD i default).«end» + 3/20) := by
    split_ifs with h1 h2
    · linarith
    · have := hord i (by omega)
      linarith
    · linarith
  have hBT : (if i = ms.length - 1 then T else
      if (ms.getD (i+1) default).status ≠ "failed" ∧ (ms.getD (i+1) default).start > 0
      then ((ms.getD i default).«end» + (ms.getD (i+1) default).start) / 2
      else (ms.getD i default).«end» + 3/20) ≤ T := by
    split_ifs with h1 h2
    · exact le_refl T
    · obtain ⟨hs0', hse', heT'⟩ := hwf (i+1) (by omega)
      linarith
    · exact hpad i (by omega)
  exact ⟨hA0, le_trans hAle hBge, hBT⟩

/-- Witness for C4's amended theorem: a single matched cue in a 3-second
recording. -/
theorem C4_amended_witness :
    (0 : ℚ) ≤ 0 ∧ (0 : ℚ) ≤ 3 ∧ (3 : ℚ) ≤ 3 := by
  have := C4_amended_split_bounds [⟨0, "a", "matched", "a", 1, 2, 1⟩] 3
    (by with_unfolding_all decide)
    (by intro i hi; simp only [List.length_cons, List.length_nil] at hi; omega)
    (by intro i hi; simp only [List.length_cons, List.length_nil] at hi; omega)
    0 (by decide) ((0 : ℚ), (3 : ℚ)) (by with_unfolding_all rfl)
  exact this

/-- C6 amended: the digit/word equivalence rule of `words_similar` holds
exactly for the digit strings the precomputed table covers — the keys
`str(0) … str(199)` of `_NUM_TO_WORDS`.  Whenever the lookup of `s`
yields the expansion `ws` and `b` is one of the words of `ws`, both
orientations of `words_similar` return `true`.  (For digit strings with
value ≥ 200 the rule does not fire; see the counterexample.) -/
theorem C6_amended_number_word_equivalence (s ws b : String)
    (hs : s ≠ "") (hb : b ≠ "")
    (hlook : NUM_TO_WORDS s = some ws) (hmem : b ∈ ws.splitOn " ") :
    words_similar s b = true ∧ words_similar b s = true := by
  have hcont : (ws.splitOn " ").contains b = true := by
    exact List.elem_eq_true_of_mem hmem
  constructor
  · unfold words_similar
    rw [if_neg (by simp [hs, hb])]
    by_cases hsb : s = b
    · rw [if_pos hsb]
    · rw [if_neg hsb, hlook]
      simp only []
      rw [if_pos hcont]
  · unfold words_similar
    rw [if_neg (by simp [hs, hb])]
    by_cases hbs : b = s
    · rw [if_pos hbs]
    · rw [if_neg hbs]
      by_cases hc1 : (match NUM_TO_WORDS b with
          | some ws' => (ws'.splitOn " ").contains s
          | none => false) = true
      · rw [if_pos hc1]
      · rw [if_neg hc1, hlook]
        simp only []
        rw [if_pos hcont]

/-- Witness for C6's amended theorem: the spec's own example
`similar(normalize("3"), normalize("three")) == true`, in both
orientations. -/
theorem C6_amended_witness :
    words_similar (normalize_word "3") (normalize_word "three") = true ∧
      words_similar (normalize_word "three") (normalize_word "3") = true := by
  have h := C6_amended_number_word_equivalence "3" "three" "three"
    (by decide) (by decide) (by with_unfolding_all rfl) (by with_unfolding_all decide)
  have e3 : normalize_word "3" = "3" := by with_unfolding_all rfl
  have et : normalize_word "three" = "three" := by with_unfolding_all rfl
  rw [e3, et]
  exact h

/-! Helper lemmas for C8: characters of the cardinal spelling, digit
tokens, and the ordinal regex on digit strings. -/

theorem data_append (a b : String) : (a ++ b).data = a.data ++ b.data := by
  cases a; cases b; rfl

theorem spelled_append {P : Char → Prop} {a b : String}
    (ha : ∀ c ∈ a.data, P c) (hb : ∀ c ∈ b.data, P c) :
    ∀ c ∈ (a ++ b).data, P c := by
  intro c hc
  rw [data_append] at hc
  rcases List.mem_append.mp hc with h | h
  exacts [ha c h, hb c h]

theorem ONES_spelled (m : Nat) : ∀ c ∈ (ONES.getD m "").data, c.isLower = true ∨ c = ' ' := by
  by_cases h : m < 20
  · exact (by decide : ∀ m' < 20, ∀ c ∈ (ONES.getD m' "").data, c.isLower = true ∨ c = ' ') m h
  · rw [List.getD_eq_default]
    · intro c hc; simp at hc
    · show ONES.length ≤ m
      simp only [ONES, List.length_cons, List.length_nil]
      omega

theorem TENS_spelled (m : Nat) : ∀ c ∈ (TENS.getD m "").data, c.isLower = true ∨ c = ' ' := by
  by_cases h : m < 10
  · exact (by decide : ∀ m' < 10, ∀ c ∈ (TENS.getD m' "").data, c.isLower = true ∨ c = ' ') m h
  · rw [List.getD_eq_default]
    · intro c hc; simp at hc
    · show TENS.length ≤ m
      simp only [TENS, List.length_cons, List.length_nil]
      omega

/-- The cardinal spelling of `0 ≤ n < 100000` consists of lowercase
letters and spaces only — it really is English words, never digits. -/
theorem int_to_words_spelled : ∀ (k : Nat) (n : Int), n.natAbs ≤ k → 0 ≤ n → n < 100000 →
    ∀ c ∈ (int_to_words n).data, c.isLower = true ∨ c = ' ' := by
  intro k
  induction k using Nat.strong_induction_on with
  | _ k ih =>
    intro n hk h0 hlt
    rw [int_to_words]
    by_cases h1 : n = 0
    · rw [dif_pos h1]; decide
    rw [dif_neg h1]
    by_cases h2 : n < 0
    · omega
    rw [dif_neg h2]
    by_cases h3 : n < 20
    · rw [dif_pos h3]; exact ONES_spelled _
    rw [dif_neg h3]
    by_cases h4 : n < 100
    · rw [dif_pos h4]
      refine spelled_append (TENS_spelled _) ?_
      split_ifs with hm
      · exact spelled_append (by decide) (ONES_spelled _)
      · decide
    rw [dif_neg h4]
    by_cases h5 : n < 1000
    · rw [dif_pos h5]
      refine spelled_append (spelled_append (ONES_spelled _) (by decide)) ?_
      split_ifs with hm
      · refine spelled_append (by decide) ?_
        exact ih 99 (by omega) (n % 100) (by omega) (by omega) (by omega)
      · decide
    rw [dif_neg h5]
    rw [dif_pos (by omega : n < 100000)]
    refine spelled_append (spelled_append ?_ (by decide)) ?_
    · exact ih 99 (by omega) (n / 1000) (by omega) (by omega) (by omega)
    · split_ifs with hm
      · refine spelled_append (by decide) ?_
        exact ih 999 (by omega) (n % 1000) (by omega) (by omega) (by omega)
      · decide

/-- Values of 100000 and above fall through to `str(n)`. -/
theorem int_to_words_large (n : Int) (h : 100000 ≤ n) : int_to_words n = toString n := by
  rw [int_to_words]
  rw [dif_neg (by omega), dif_neg (by omega), dif_neg (by omega), dif_neg (by omega),
    dif_neg (by omega), dif_neg (by omega)]

theorem toLower_digit (c : Char) (h : c.isDigit = true) : Char.toLower c = c := by
  have hn : c.val.toBitVec.toNat = c.toNat := rfl
  have h' : c.toNat ≤ 57 := by
    simp only [Char.isDigit, Bool.and_eq_true, decide_eq_true_eq, UInt32.le_def,
      BitVec.le_def] at h
    have h57 : ((57 : UInt32)).toBitVec.toNat = 57 := rfl
    omega
  unfold Char.toLower
  simp only []
  rw [if_neg (by omega)]

theorem map_toLower_digits (l : List Char) (h : l.all Char.isDigit = true) :
    l.map Char.toLower = l := by
  induction l with
  | nil => rfl
  | cons c tl ihl =>
    rw [List.all_cons, Bool.and_eq_true] at h
    rw [List.map_cons, toLower_digit c h.1, ihl h.2]

/-- The ordinal regex never matches a pure digit string (its suffix has
no letters). -/
theorem digits_no_ordinal (s : String) (hd : s.data.all Char.isDigit = true) :
    matchOrdinal s = none := by
  unfold matchOrdinal
  simp only []
  rw [if_neg]
  rintro ⟨hsuf, -, -⟩
  have hmem : ∀ c ∈ s.data.drop (s.data.length - 2), c.isDigit = true := by
    intro c hc
    exact List.all_eq_true.mp hd c (List.mem_of_mem_drop hc)
  rcases hsuf with h | h | h | h <;> rw [h] at hmem
  · exact absurd (hmem 's' (by simp)) (by decide)
  · exact absurd (hmem 'n' (by simp)) (by decide)
  · exact absurd (hmem 'r' (by simp)) (by decide)
  · exact absurd (hmem 't' (by simp)) (by decide)

/-- Any token whose stripped form is a digit string takes the
plain-integer branch of the token loop. -/
theorem expandToken_digits (tok : String) (h : pyIsDigit (pyStrip tok) = true) :
    expandToken tok = int_to_words (digitsToInt (pyStrip tok)) := by
  unfold expandToken
  simp only []
  have hall : (pyStrip tok).data.all Char.isDigit = true := by
    unfold pyIsDigit at h
    rw [Bool.and_eq_true] at h
    exact h.2
  have hlower : (⟨(pyStrip tok).data.map Char.toLower⟩ : String) = pyStrip tok := by
    rw [map_toLower_digits _ hall]
  rw [hlower, digits_no_ordinal _ hall]
  simp only []
  rw [if_pos h]

/-- C8: every plain-integer token expands through `_int_to_words`; for
values 0–99999 the result is genuine English words (lowercase letters
and spaces only), while values ≥ 100000 stay as their digit string;
ordinal tokens expand through `_ordinal_to_words`; and the spec's
example `expand("21st place") == "twenty first place"` holds. -/
theorem C8_expand_numbers :
    (∀ tok : String, pyIsDigit (pyStrip tok) = true →
        expandToken tok = int_to_words (digitsToInt (pyStrip tok))) ∧
    (∀ n : Int, 0 ≤ n → n < 100000 →
        ∀ c ∈ (int_to_words n).data, c.isLower = true ∨ c = ' ') ∧
    (∀ n : Int, 100000 ≤ n → int_to_words n = toString n) ∧
    (∀ (tok : String) (n : Int),
        matchOrdinal ⟨(pyStrip tok).data.map Char.toLower⟩ = some n →
        expandToken tok = ordinal_to_words n) ∧
    expand_numbers_in_text "21st place" = "twenty first place" := by
  refine ⟨expandToken_digits, ?_, int_to_words_large, ?_, ?_⟩
  · exact fun n h0 hlt => int_to_words_spelled n.natAbs n le_rfl h0 hlt
  · intro tok n h
    unfold expandToken
    simp only []
    rw [h]
  · with_unfolding_all rfl

/-- Witness for C8 at concrete tokens: `"42,"`, the digits bound, and
`"3rd"`. -/
theorem C8_expand_numbers_witness :
    expandToken "42," = int_to_words (digitsToInt (pyStrip "42,")) ∧
    ('f'.isLower = true ∨ 'f' = ' ') ∧
    int_to_words 123456 = toString (123456 : Int) ∧
    expandToken "3rd" = ordinal_to_words 3 := by
  refine ⟨C8_expand_numbers.1 "42," (by with_unfolding_all rfl),
    C8_expand_numbers.2.1 42 (by decide) (by decide) 'f' ?_,
    C8_expand_numbers.2.2.1 123456 (by decide),
    C8_expand_numbers.2.2.2.1 "3rd" 3 (by with_unfolding_all rfl)⟩
  with_unfolding_all decide

/-- C9: every iteration of the alignment loop advances both pointers by
at least one; in particular, when no resynchronization is found within
the lookahead window (`pickAction` returns `force`) the current
positions are force-paired and both pointers advance by exactly one.
This is the forced-progress property under which the scan terminates —
`alignLoop` is defined by recursion on `cue.length - c`, which this
theorem shows strictly decreases.  (The linear-time bound itself is out
of scope for the embedding.) -/
theorem C9_alignStep_progress (cue tr : List String) (c t : Nat) :
    (c + 1 ≤ (alignStep cue tr c t).1 ∧ t + 1 ≤ (alignStep cue tr c t).2.1) ∧
    (pickAction (lookT cue tr c t) (lookC cue tr c t) (lookD cue tr c t) = Action.force →
      words_similar (cue.getD c "") (tr.getD t "") = false →
      alignStep cue tr c t = (c + 1, t + 1, [(c, t)])) := by
  refine ⟨⟨alignStep_fst_lt cue tr c t, alignStep_snd_lt cue tr c t⟩, ?_⟩
  intro hpick hsim
  unfold alignStep
  rw [if_neg (by simp only [hsim]; exact Bool.false_ne_true), hpick]

/-- Witness for C9 at a concrete mismatch with no possible recovery. -/
theorem C9_alignStep_progress_witness :
    alignStep ["aa"] ["bb"] 0 0 = (0 + 1, 0 + 1, [(0, 0)]) :=
  (C9_alignStep_progress ["aa"] ["bb"] 0 0).2 (by with_unfolding_all rfl)
    (by with_unfolding_all rfl)

/-! Helper lemmas for C3: the pipeline produces one result per cue and
preserves cue order. -/

theorem buildRanges_length (ls : List (List String)) (acc : Nat) :
    (buildRanges ls acc).length = ls.length := by
  induction ls generalizing acc with
  | nil => rfl
  | cons h t ih => simp [buildRanges, ih]

theorem interpStep_length (words : List Word) (res : List CueMatch) (i : Nat) :
    (interpStep words res i).length = res.length := by
  unfold interpStep
  simp only []
  split_ifs <;> simp

theorem interp_foldl_length (words : List Word) (l : List Nat) (res : List CueMatch) :
    (l.foldl (interpStep words) res).length = res.length := by
  induction l generalizing res with
  | nil => rfl
  | cons j t ih => rw [List.foldl_cons, ih, interpStep_length]

theorem interpolate_length (words : List Word) (res : List CueMatch) :
    (interpolate words res).length = res.length :=
  interp_foldl_length words _ res

theorem extractCue_cue_index (cue_lines : List String) (words : List Word)
    (alignment : List (Nat × Nat)) (rg : Nat × Int) (i : Nat) :
    (extractCue cue_lines words alignment rg i).cue_index = i := by
  unfold extractCue
  simp only []
  split <;> rfl

theorem interpStep_cue_index (words : List Word) (res : List CueMatch) (i j : Nat) :
    ((interpStep words res i).getD j default).cue_index
      = (res.getD j default).cue_index := by
  unfold interpStep
  simp only []
  split_ifs with h1 h2
  · by_cases hlt : i < res.length
    · by_cases hij : j = i
      · subst hij
        rw [List.getD_eq_getElem?_getD, List.getElem?_set_self hlt]
        rfl
      · rw [List.getD_eq_getElem?_getD, List.getElem?_set_ne (fun he => hij he.symm),
          List.getD_eq_getElem?_getD]
    · rw [List.set_eq_of_length_le (by omega)]
  · rfl
  · rfl

theorem interp_foldl_cue_index (words : List Word) (l : List Nat) (res : List CueMatch)
    (j : Nat) :
    ((l.foldl (interpStep words) res).getD j default).cue_index
      = (res.getD j default).cue_index := by
  induction l generalizing res with
  | nil => rfl
  | cons i t ih => rw [List.foldl_cons, ih, interpStep_cue_index]

theorem range_map_getD {β : Type} [Inhabited β] (n : Nat) (f : Nat → β) (i : Nat)
    (h : i < n) : ((List.range n).map f).getD i default = f i := by
  rw [List.getD_eq_getElem?_getD, List.getElem?_map, List.getElem?_range h]
  rfl

/-- C3 amended: `match_cues_to_transcript` returns exactly one
`CueMatchResult` per cue line, in cue order (`cue_index = i`), and the
split-point computation yields exactly one entry per cue.  The claim's
further assertions fail on the code: an interpolated cue can get
`start > end` (see the counterexample), and a cue that is still failed
contributes `None` to the split-point list rather than a `SplitPoint`. -/
theorem C3_amended_one_result_per_cue (cue_lines : List String) (words : List Word)
    (T : ℚ) :
    (match_cues_to_transcript cue_lines words).length = cue_lines.length ∧
    (∀ i < cue_lines.length,
      ((match_cues_to_transcript cue_lines words).getD i default).cue_index = i) ∧
    (split_points (match_cues_to_transcript cue_lines words) T).length
      = (match_cues_to_transcript cue_lines words).length := by
  refine ⟨?_, ?_, ?_⟩
  · unfold match_cues_to_transcript
    simp only []
    rw [interpolate_length]
    simp [buildRanges_length]
  · intro i hi
    unfold match_cues_to_transcript
    simp only []
    rw [interpolate]
    rw [interp_foldl_cue_index]
    rw [range_map_getD _ _ i (by simp [buildRanges_length]; exact hi)]
    exact extractCue_cue_index _ _ _ _ _
  · unfold split_points
    simp

/-- Witness for C3's amended theorem at a concrete matched input. -/
theorem C3_amended_witness :
    (match_cues_to_transcript ["a"] [⟨"a", 0, 1⟩]).length = (["a"] : List String).length ∧
    ((match_cues_to_transcript ["a"] [⟨"a", 0, 1⟩]).getD 0 default).cue_index = 0 ∧
    (split_points (match_cues_to_transcript ["a"] [⟨"a", 0, 1⟩]) 2).length
      = (match_cues_to_transcript ["a"] [⟨"a", 0, 1⟩]).length := by
  obtain ⟨h1, h2, h3⟩ := C3_amended_one_result_per_cue ["a"] [⟨"a", 0, 1⟩] 2
  exact ⟨h1, h2 0 (by decide), h3⟩

/-! Helper lemmas for C5: on syntactically equal sequences the loop
walks the diagonal.  A mismatch can only occur at an empty-string token
(`words_similar` rejects empty strings even against themselves); the
lookahead then either finds the next non-empty position at equal offset
(`skip_both`, still diagonal) or fails and force-pairs the diagonal. -/

theorem words_similar_self (a : String) (h : a ≠ "") : words_similar a a = true := by
  unfold words_similar
  rw [if_neg (by simp [h]), if_pos rfl]

theorem words_similar_empty_left (b : String) : words_similar "" b = false := by
  unfold words_similar
  rw [if_pos (Or.inl rfl)]

theorem words_similar_empty_right (a : String) : words_similar a "" = false := by
  unfold words_similar
  rw [if_pos (Or.inr rfl)]

theorem diag_succ (c : Nat) :
    ((List.range (c+1)).map fun i => ((i : Nat), (i : Nat)))
      = (((List.range c).map fun i => (i, i)) ++ [(c, c)]) := by
  rw [List.range_succ, List.map_append]
  rfl

theorem diag_add (c k : Nat) :
    ((((List.range c).map fun i => ((i : Nat), (i : Nat)))
        ++ ((List.range (k+1)).map fun i => (c + i, c + i)))
      = ((List.range (c + (k+1))).map fun i => (i, i))) := by
  conv_rhs => rw [List.range_add, List.map_append, List.map_map]
  rfl

theorem alignLoop_diag (w : List String) :
    ∀ d c, w.length - c = d → c ≤ w.length →
      alignLoop w w c c ((List.range c).map fun i => (i, i))
        = (((List.range w.length).map fun i => (i, i)), w.length) := by
  intro d
  induction d using Nat.strong_induction_on with
  | _ d ih =>
    intro c hd hc
    rw [alignLoop]
    by_cases hcw : c < w.length
    · rw [if_pos ⟨hcw, hcw⟩]
      by_cases hsim : words_similar (w.getD c "") (w.getD c "") = true
      · have hstep : alignStep w w c c = (c+1, c+1, [(c, c)]) := by
          unfold alignStep
          rw [if_pos hsim]
        rw [hstep]
        simp only []
        rw [← diag_succ]
        exact ih (w.length - (c+1)) (by omega) (c+1) rfl (by omega)
      · have hempty : w.getD c "" = "" := by
          by_contra hne
          exact hsim (words_similar_self _ hne)
        have hlookT : lookT w w c c = none := by
          unfold lookT
          rw [List.find?_eq_none]
          intro x hx
          rw [hempty, words_similar_empty_left]
          simp
        have hlookC : lookC w w c c = none := by
          unfold lookC
          rw [List.find?_eq_none]
          intro x hx
          rw [hempty, words_similar_empty_right]
          simp
        cases hlookD : lookD w w c c with
        | none =>
          have hstep : alignStep w w c c = (c+1, c+1, [(c, c)]) := by
            unfold alignStep
            rw [if_neg hsim, hlookT, hlookC, hlookD]
            rfl
          rw [hstep]
          simp only []
          rw [← diag_succ]
          exact ih (w.length - (c+1)) (by omega) (c+1) rfl (by omega)
        | some k =>
          have hkmem := List.mem_of_find?_eq_some hlookD
          rw [List.mem_range'] at hkmem
          obtain ⟨i, hilt, hieq⟩ := hkmem
          have hk15 : k < MAX_LOOK + 1 := by
            simp only [MAX_LOOK] at *
            omega
          have hkn : c + k + 1 ≤ w.length := by
            simp only [MAX_LOOK] at hilt
            omega
          have hpick : pickAction (lookT w w c c) (lookC w w c c) (lookD w w c c)
              = Action.skipBoth k := by
            rw [hlookT, hlookC, hlookD]
            unfold pickAction
            simp only []
            rw [if_pos hk15]
          have hstep : alignStep w w c c
              = (c+k+1, c+k+1,
                 (((List.range k).map fun i => (c + i, c + i)) ++ [(c + k, c + k)])) := by
            unfold alignStep
            rw [if_neg hsim, hpick]
          rw [hstep]
          simp only []
          have hentries : (((List.range k).map fun i => (c + i, c + i)) ++ [(c + k, c + k)])
              = ((List.range (k+1)).map fun i => (c + i, c + i)) := by
            rw [List.range_succ, List.map_append]
            rfl
          rw [hentries, diag_add]
          have hck : c + (k + 1) = c + k + 1 := by omega
          rw [hck]
          exact ih (w.length - (c+k+1)) (by omega) (c+k+1) rfl (by omega)
    · rw [if_neg (by omega)]
      have hcl : c = w.length := by omega
      subst hcl
      rfl

theorem lookup_map_diag (l : List Nat) (k : Nat) :
    ((l.map fun i => ((i : Nat), (i : Nat))).lookup k) = if k ∈ l then some k else none := by
  induction l with
  | nil => rfl
  | cons j t ih =>
    by_cases hkj : k = j
    · subst hkj
      simp [List.lookup]
    · simp only [List.map_cons, List.lookup, List.mem_cons]
      rw [beq_false_of_ne hkj]
      simp only []
      rw [ih]
      by_cases hkt : k ∈ t
      · rw [if_pos hkt, if_pos (Or.inr hkt)]
      · rw [if_neg hkt, if_neg (by tauto)]

/-- C5: when the cue-word sequence and the transcript-word sequence are
exactly equal, `align_sequences` maps every index to itself. -/
theorem C5_exact_match_identity (cue_words transcript_words : List String)
    (h : cue_words = transcript_words) :
    ∀ i < cue_words.length,
      (align_sequences cue_words transcript_words).lookup i = some i := by
  subst h
  intro i hi
  unfold align_sequences
  simp only []
  have hd := alignLoop_diag cue_words (cue_words.length - 0) 0 rfl (by omega)
  simp only [List.range_zero, List.map_nil] at hd
  rw [hd]
  simp only []
  rw [if_neg (by omega)]
  rw [lookup_map_diag]
  rw [if_pos (List.mem_range.mpr hi)]

/-- Witness for C5 on a concrete equal pair. -/
theorem C5_exact_match_identity_witness :
    (align_sequences ["hello", "world"] ["hello", "world"]).lookup 1 = some 1 :=
  C5_exact_match_identity ["hello", "world"] ["hello", "world"] rfl 1 (by decide)

/-! Helper lemmas for C10: the alignment's association list has strictly
increasing keys and non-decreasing values.  `entryMono` is the pairwise
relation maintained by the loop. -/


def entryMono (p q : Nat × Nat) : Prop := p.1 < q.1 ∧ p.2 ≤ q.2

theorem lookup_isSome_of_mem_keys (l : List (Nat × Nat)) (k : Nat)
    (h : k ∈ l.map Prod.fst) : ∃ v, l.lookup k = some v := by
  induction l with
  | nil => simp at h
  | cons p t ih =>
    obtain ⟨pk, pv⟩ := p
    by_cases hk : k = pk
    · exact ⟨pv, by simp [List.lookup, hk]⟩
    · have hmem : k ∈ t.map Prod.fst := by
        simp only [List.map_cons, List.mem_cons] at h
        tauto
      obtain ⟨v, hv⟩ := ih hmem
      exact ⟨v, by simp [List.lookup, beq_false_of_ne hk, hv]⟩

theorem lookup_mem (l : List (Nat × Nat)) (k v : Nat) (h : l.lookup k = some v) :
    (k, v) ∈ l := by
  induction l with
  | nil => simp [List.lookup] at h
  | cons p t ih =>
    obtain ⟨pk, pv⟩ := p
    by_cases hk : k = pk
    · subst hk
      have he : List.lookup k ((k, pv) :: t) = some pv := by simp [List.lookup]
      rw [he] at h
      obtain rfl := Option.some.inj h
      exact List.mem_cons_self _ _
    · have he : List.lookup k ((pk, pv) :: t) = List.lookup k t := by
        simp [List.lookup, beq_false_of_ne hk]
      rw [he] at h
      exact List.mem_cons_of_mem _ (ih h)

theorem pairwise_lookup_mono (l : List (Nat × Nat))
    (hp : l.Pairwise entryMono) :
    ∀ i j vi vj, i ≤ j → l.lookup i = some vi → l.lookup j = some vj → vi ≤ vj := by
  induction l with
  | nil => intro i j vi vj _ hi _; simp [List.lookup] at hi
  | cons p t ih =>
    obtain ⟨pk, pv⟩ := p
    rw [List.pairwise_cons] at hp
    obtain ⟨hhead, htl⟩ := hp
    intro i j vi vj hij hi hj
    by_cases hik : i = pk
    · have hvi : vi = pv := by
        rw [hik] at hi
        have he : List.lookup pk ((pk, pv) :: t) = some pv := by simp [List.lookup]
        rw [he] at hi
        exact (Option.some.inj hi).symm
      by_cases hjk : j = pk
      · have hvj : vj = pv := by
          rw [hjk] at hj
          have he : List.lookup pk ((pk, pv) :: t) = some pv := by simp [List.lookup]
          rw [he] at hj
          exact (Option.some.inj hj).symm
        rw [hvi, hvj]
      · have he : List.lookup j ((pk, pv) :: t) = List.lookup j t := by
          simp [List.lookup, beq_false_of_ne hjk]
        rw [he] at hj
        rw [hvi]
        exact (hhead _ (lookup_mem _ _ _ hj)).2
    · have hei : List.lookup i ((pk, pv) :: t) = List.lookup i t := by
        simp [List.lookup, beq_false_of_ne hik]
      rw [hei] at hi
      by_cases hjk : j = pk
      · have hlt : pk < i := (hhead _ (lookup_mem _ _ _ hi)).1
        omega
      · have hej : List.lookup j ((pk, pv) :: t) = List.lookup j t := by
          simp [List.lookup, beq_false_of_ne hjk]
        rw [hej] at hj
        exact ih htl i j vi vj hij hi hj

theorem lookT_bound (cue tr : List String) (c t k : Nat)
    (h : lookT cue tr c t = some k) : 1 ≤ k ∧ t + k + 1 ≤ tr.length := by
  have hm := List.mem_of_find?_eq_some h
  rw [List.mem_range'] at hm
  obtain ⟨i, hi, hk⟩ := hm
  simp only [MAX_LOOK] at hi
  omega

theorem lookC_bound (cue tr : List String) (c t k : Nat)
    (h : lookC cue tr c t = some k) : 1 ≤ k ∧ c + k + 1 ≤ cue.length := by
  have hm := List.mem_of_find?_eq_some h
  rw [List.mem_range'] at hm
  obtain ⟨i, hi, hk⟩ := hm
  simp only [MAX_LOOK] at hi
  omega

theorem lookD_bound (cue tr : List String) (c t k : Nat)
    (h : lookD cue tr c t = some k) :
    1 ≤ k ∧ c + k + 1 ≤ cue.length ∧ t + k + 1 ≤ tr.length := by
  have hm := List.mem_of_find?_eq_some h
  rw [List.mem_range'] at hm
  obtain ⟨i, hi, hk⟩ := hm
  simp only [MAX_LOOK] at hi
  omega

theorem pickAction_eq_skipT (ts cs ds : Option Nat) (k : Nat)
    (h : pickAction ts cs ds = Action.skipT k) : ts = some k := by
  unfold pickAction at h
  rcases ts with _ | a <;> rcases cs with _ | b <;> rcases ds with _ | c <;>
    simp only [] at h <;>
    first
      | (split_ifs at h <;> simp_all)
      | simp_all

theorem pickAction_eq_skipC (ts cs ds : Option Nat) (k : Nat)
    (h : pickAction ts cs ds = Action.skipC k) : cs = some k := by
  unfold pickAction at h
  rcases ts with _ | a <;> rcases cs with _ | b <;> rcases ds with _ | c <;>
    simp only [] at h <;>
    first
      | (split_ifs at h <;> simp_all)
      | simp_all

theorem pickAction_eq_skipBoth (ts cs ds : Option Nat) (k : Nat)
    (h : pickAction ts cs ds = Action.skipBoth k) : ds = some k := by
  unfold pickAction at h
  rcases ts with _ | a <;> rcases cs with _ | b <;> rcases ds with _ | c <;>
    simp only [] at h <;>
    first
      | (split_ifs at h <;> simp_all)
      | simp_all

theorem alignStep_spec (cue tr : List String) (c t : Nat)
    (hc : c < cue.length) (ht : t < tr.length) :
    (alignStep cue tr c t).1 ≤ cue.length ∧
    (alignStep cue tr c t).2.1 ≤ tr.length ∧
    ((alignStep cue tr c t).2.2.map Prod.fst)
      = List.range' c ((alignStep cue tr c t).1 - c) ∧
    (alignStep cue tr c t).2.2.Pairwise entryMono ∧
    (∀ p ∈ (alignStep cue tr c t).2.2, t ≤ p.2 ∧ p.2 < (alignStep cue tr c t).2.1) := by
  by_cases hsim : words_similar (cue.getD c "") (tr.getD t "") = true
  · have hstep : alignStep cue tr c t = (c + 1, t + 1, [(c, t)]) := by
      unfold alignStep
      rw [if_pos hsim]
    rw [hstep]
    dsimp only
    refine ⟨by omega, by omega, ?_, by simp [entryMono], ?_⟩
    · have h1 : c + 1 - c = 1 := by omega
      rw [h1]
      rfl
    · intro p hp
      rw [List.mem_singleton] at hp
      subst hp
      exact ⟨le_refl t, by omega⟩
  · rcases hpick : pickAction (lookT cue tr c t) (lookC cue tr c t) (lookD cue tr c t) with
      k | k | k | _
    · -- skipT
      obtain ⟨hk1, hkb⟩ := lookT_bound cue tr c t k (pickAction_eq_skipT _ _ _ _ hpick)
      have hstep : alignStep cue tr c t = (c + 1, t + k + 1, [(c, t + k)]) := by
        unfold alignStep
        rw [if_neg hsim, hpick]
      rw [hstep]
      dsimp only
      refine ⟨by omega, by omega, ?_, by simp [entryMono], ?_⟩
      · have h1 : c + 1 - c = 1 := by omega
        rw [h1]
        rfl
      · intro p hp
        rw [List.mem_singleton] at hp
        subst hp
        exact ⟨by omega, by omega⟩
    · -- skipC
      obtain ⟨hk1, hkb⟩ := lookC_bound cue tr c t k (pickAction_eq_skipC _ _ _ _ hpick)
      have hstep : alignStep cue tr c t
          = (c + k + 1, t + 1,
             (((List.range k).map fun i => (c + i, t)) ++ [(c + k, t)])) := by
        unfold alignStep
        rw [if_neg hsim, hpick]
      rw [hstep]
      dsimp only
      refine ⟨by omega, by omega, ?_, ?_, ?_⟩
      · have h1 : c + k + 1 - c = k + 1 := by omega
        rw [h1, List.map_append, List.map_map, List.range'_eq_map_range,
          List.range_succ, List.map_append]
        rfl
      · rw [List.pairwise_append]
        refine ⟨?_, by simp, ?_⟩
        · rw [List.pairwise_map]
          exact (List.pairwise_lt_range k).imp (fun h => ⟨by omega, le_refl t⟩)
        · intro x hx y hy
          rw [List.mem_map] at hx
          obtain ⟨i, hi, rfl⟩ := hx
          rw [List.mem_range] at hi
          rw [List.mem_singleton] at hy
          subst hy
          exact ⟨by omega, le_refl t⟩
      · intro p hp
        rw [List.mem_append] at hp
        rcases hp with hp | hp
        · rw [List.mem_map] at hp
          obtain ⟨i, hi, rfl⟩ := hp
          exact ⟨le_refl t, by omega⟩
        · rw [List.mem_singleton] at hp
          subst hp
          exact ⟨le_refl t, by omega⟩
    · -- skipBoth
      obtain ⟨hk1, hkb1, hkb2⟩ :=
        lookD_bound cue tr c t k (pickAction_eq_skipBoth _ _ _ _ hpick)
      have hstep : alignStep cue tr c t
          = (c + k + 1, t + k + 1,
             (((List.range k).map fun i => (c + i, t + i)) ++ [(c + k, t + k)])) := by
        unfold alignStep
        rw [if_neg hsim, hpick]
      rw [hstep]
      dsimp only
      refine ⟨by omega, by omega, ?_, ?_, ?_⟩
      · have h1 : c + k + 1 - c = k + 1 := by omega
        rw [h1, List.map_append, List.map_map, List.range'_eq_map_range,
          List.range_succ, List.map_append]
        rfl
      · rw [List.pairwise_append]
        refine ⟨?_, by simp, ?_⟩
        · rw [List.pairwise_map]
          exact (List.pairwise_lt_range k).imp (fun h => ⟨by omega, by omega⟩)
        · intro x hx y hy
          rw [List.mem_map] at hx
          obtain ⟨i, hi, rfl⟩ := hx
          rw [List.mem_range] at hi
          rw [List.mem_singleton] at hy
          subst hy
          exact ⟨by omega, by omega⟩
      · intro p hp
        rw [List.mem_append] at hp
        rcases hp with hp | hp
        · rw [List.mem_map] at hp
          obtain ⟨i, hi, rfl⟩ := hp
          rw [List.mem_range] at hi
          exact ⟨by omega, by omega⟩
        · rw [List.mem_singleton] at hp
          subst hp
          exact ⟨by omega, by omega⟩
    · -- force
      have hstep : alignStep cue tr c t = (c + 1, t + 1, [(c, t)]) := by
        unfold alignStep
        rw [if_neg hsim, hpick]
      rw [hstep]
      dsimp only
      refine ⟨by omega, by omega, ?_, by simp [entryMono], ?_⟩
      · have h1 : c + 1 - c = 1 := by omega
        rw [h1]
        rfl
      · intro p hp
        rw [List.mem_singleton] at hp
        subst hp
        exact ⟨le_refl t, by omega⟩

theorem alignLoop_spec (cue tr : List String) :
    ∀ (d c t : Nat) (acc : List (Nat × Nat)),
      cue.length - c ≤ d → c ≤ cue.length → t ≤ tr.length →
      acc.map Prod.fst = List.range c →
      acc.Pairwise entryMono →
      (∀ p ∈ acc, p.2 < t) →
      ((alignLoop cue tr c t acc).1.map Prod.fst
          = List.range (alignLoop cue tr c t acc).2) ∧
      (alignLoop cue tr c t acc).1.Pairwise entryMono ∧
      (∀ p ∈ (alignLoop cue tr c t acc).1, p.2 < tr.length) ∧
      c ≤ (alignLoop cue tr c t acc).2 ∧
      (alignLoop cue tr c t acc).2 ≤ cue.length := by
  intro d
  induction d using Nat.strong_induction_on with
  | _ d ih =>
    intro c t acc hd hc ht hkeys hpw hvals
    rw [alignLoop]
    by_cases hg : c < cue.length ∧ t < tr.length
    · rw [if_pos hg]
      obtain ⟨hgc, hgt⟩ := hg
      obtain ⟨hs1, hs2, hs3, hs4, hs5⟩ := alignStep_spec cue tr c t hgc hgt
      have hprog_c := alignStep_fst_lt cue tr c t
      have hprog_t := alignStep_snd_lt cue tr c t
      have hnext := ih (d - 1) (by omega) (alignStep cue tr c t).1
        (alignStep cue tr c t).2.1 (acc ++ (alignStep cue tr c t).2.2)
        (by omega) hs1 hs2 ?_ ?_ ?_
      · obtain ⟨n1, n2, n3, n4, n5⟩ := hnext
        exact ⟨n1, n2, n3, by omega, n5⟩
      · rw [List.map_append, hkeys, hs3]
        rw [List.range'_eq_map_range, ← List.range_add]
        congr 1
        omega
      · rw [List.pairwise_append]
        refine ⟨hpw, hs4, ?_⟩
        intro x hx y hy
        have hxk : x.1 < c := by
          have : x.1 ∈ acc.map Prod.fst := List.mem_map_of_mem Prod.fst hx
          rw [hkeys, List.mem_range] at this
          exact this
        have hyk : c ≤ y.1 := by
          have : y.1 ∈ (alignStep cue tr c t).2.2.map Prod.fst :=
            List.mem_map_of_mem Prod.fst hy
          rw [hs3, List.mem_range'] at this
          obtain ⟨i, _, hyi⟩ := this
          omega
        exact ⟨by omega, le_trans (le_of_lt (hvals x hx)) (hs5 y hy).1⟩
      · intro p hp
        rw [List.mem_append] at hp
        rcases hp with hp | hp
        · exact lt_trans (hvals p hp) hprog_t
        · exact (hs5 p hp).2
    · rw [if_neg hg]
      refine ⟨hkeys, hpw, ?_, le_refl c, hc⟩
      intro p hp
      exact lt_of_lt_of_le (hvals p hp) ht

theorem align_sequences_spec (cue tr : List String) (hm : 0 < tr.length) :
    ((align_sequences cue tr).map Prod.fst = List.range cue.length) ∧
    (align_sequences cue tr).Pairwise entryMono := by
  unfold align_sequences
  simp only []
  obtain ⟨h1, h2, h3, h4, h5⟩ := alignLoop_spec cue tr cue.length 0 0 []
    (by omega) (by omega) (by omega) (by simp) (by simp) (by simp)
  by_cases hcond : (alignLoop cue tr 0 0 []).2 < cue.length ∧ tr.length > 0
  · rw [if_pos hcond]
    constructor
    · rw [List.map_append, h1, List.map_map]
      have hfst : (Prod.fst ∘ fun i => ((i : Nat), tr.length - 1))
          = fun i => (i : Nat) := rfl
      rw [hfst, List.map_id']
      rw [List.range'_eq_map_range, ← List.range_add]
      congr 1
      omega
    · rw [List.pairwise_append]
      refine ⟨h2, ?_, ?_⟩
      · rw [List.pairwise_map]
        have := List.pairwise_lt_range' (alignLoop cue tr 0 0 []).2
          (cue.length - (alignLoop cue tr 0 0 []).2)
        exact this.imp (fun h => ⟨h, le_refl _⟩)
      · intro x hx y hy
        have hxk : x.1 < (alignLoop cue tr 0 0 []).2 := by
          have : x.1 ∈ (alignLoop cue tr 0 0 []).1.map Prod.fst :=
            List.mem_map_of_mem Prod.fst hx
          rw [h1, List.mem_range] at this
          exact this
        rw [List.mem_map] at hy
        obtain ⟨i, hi, rfl⟩ := hy
        rw [List.mem_range'] at hi
        obtain ⟨j, hj, rfl⟩ := hi
        have hx2 := h3 x hx
        exact ⟨by omega, by omega⟩
  · rw [if_neg hcond]
    have hcl : (alignLoop cue tr 0 0 []).2 = cue.length := by omega
    rw [hcl] at h1
    exact ⟨h1, h2⟩

theorem align_sequences_empty_transcript (cue : List String) :
    align_sequences cue [] = [] := by
  unfold align_sequences
  rw [alignLoop]
  rw [if_neg (by simp)]
  simp

/-- C10: with a non-empty transcript, the alignment returned by
`align_sequences` is total on cue-word positions (its keys are exactly
`0 .. n-1`) and monotone non-decreasing (position `i ≤ j` implies
`alignment[i] ≤ alignment[j]`); with an empty transcript the alignment
is empty. -/
theorem C10_alignment_total_monotone (cue tr : List String) :
    (tr ≠ [] →
      (∀ i < cue.length, ∃ v, (align_sequences cue tr).lookup i = some v) ∧
      (∀ i j vi vj, i ≤ j →
        (align_sequences cue tr).lookup i = some vi →
        (align_sequences cue tr).lookup j = some vj → vi ≤ vj)) ∧
    (tr = [] → align_sequences cue tr = []) := by
  constructor
  · intro hne
    have hm : 0 < tr.length := List.length_pos.mpr hne
    obtain ⟨hkeys, hpw⟩ := align_sequences_spec cue tr hm
    constructor
    · intro i hi
      apply lookup_isSome_of_mem_keys
      rw [hkeys]
      exact List.mem_range.mpr hi
    · intro i j vi vj hij hi hj
      exact pairwise_lookup_mono _ hpw i j vi vj hij hi hj
  · intro he
    subst he
    exact align_sequences_empty_transcript cue

/-- Witness for C10: the leftover pass assigns both remaining cue words
to the last transcript index, keeping the alignment total and monotone. -/
theorem C10_alignment_witness :
    (∃ v, (align_sequences ["a", "b"] ["a"]).lookup 1 = some v) ∧ (0 : Nat) ≤ 0 :=
  ⟨((C10_alignment_total_monotone ["a", "b"] ["a"]).1 (by decide)).1 1 (by decide),
   ((C10_alignment_total_monotone ["a", "b"] ["a"]).1 (by decide)).2 0 1 0 0
     (by decide) (by with_unfolding_all rfl) (by with_unfolding_all rfl)⟩

end VideoMaker
